import Mathlib

/-!
Verification of the stream-frame decoder of the Local-Lead-Finder app.

The repository has two variants of the decoding routine `runSearch`:

* the envelope variant (src/index.tsx): raw fetch chunks are accumulated in
  `streamBuffer`; complete lines are parsed as JSON envelopes of shape
  type/payload; `content` payloads feed an inner `jsonBuffer` that is split
  into JSONL lead lines; `sources` payloads are appended as a batch;
* the direct SDK variant (src/unnamed/part_000): SDK chunks carry an optional
  batch of grounding chunks (deduplicated by uri through the
  `processedSourceUris` set) and a text fragment fed to `jsonBuffer`.

Strings are modelled as `List Char`.  `JSON.parse` is a platform builtin, so
the decoders are parameterised by an arbitrary parse function
`Parse := List Char → Option Json`; a concrete executable model `jsonParse`
of the builtin (ECMA-404 JSON grammar) is provided for concrete runs.
-/

namespace LeadFinder

/-- Characters stripped by the JavaScript String.prototype.trim: ASCII
whitespace, line terminators, NBSP, BOM and the Unicode space separators
actually reachable in this code base. -/
def jsWsChar (c : Char) : Bool :=
  c = ' ' || c = '\t' || c = '\n' || c = '\r' ||
  c = '\x0b' || c = '\x0c' || c = '\u00A0' || c = '\uFEFF' ||
  c = '\u2028' || c = '\u2029'

/-- Model of JavaScript String.prototype.trim on a list of characters. -/
def jsTrim (l : List Char) : List Char :=
  ((l.dropWhile jsWsChar).reverse.dropWhile jsWsChar).reverse

/-- JSON values as produced by JSON.parse.  Object fields keep source order
(duplicate keys are resolved by `getField`, last occurrence winning, as in
JavaScript).  A number is kept as its source literal: JavaScript stores the
nearest double, but no verified property depends on numeric magnitude or on
the double's re-formatting, only on which lines parse and on the structure of
the parsed value. -/
inductive Json where
  | null : Json
  | bool : Bool → Json
  | num : List Char → Json
  | str : List Char → Json
  | arr : List Json → Json
  | obj : List (List Char × Json) → Json

/-- Inter-token whitespace of the JSON grammar. -/
def jsonWsChar (c : Char) : Bool :=
  c = ' ' || c = '\t' || c = '\n' || c = '\r'

/-- Skip inter-token JSON whitespace. -/
def skipWs (s : List Char) : List Char := s.dropWhile jsonWsChar

/-- Decimal digit test. -/
def isDigit (c : Char) : Bool := '0' ≤ c && c ≤ '9'

/-- Hexadecimal digit test. -/
def isHexDigit (c : Char) : Bool :=
  isDigit c || ('a' ≤ c && c ≤ 'f') || ('A' ≤ c && c ≤ 'F')

/-- Value of a hexadecimal digit. -/
def hexVal (c : Char) : Nat :=
  if isDigit c then c.toNat - '0'.toNat
  else if 'a' ≤ c && c ≤ 'f' then c.toNat - 'a'.toNat + 10
  else c.toNat - 'A'.toNat + 10

/-- Scan the body of a JSON string after the opening quote, decoding escape
sequences, up to and including the closing quote.  Returns the decoded
characters and the remaining input.  Raw control characters are rejected, as
by JSON.parse.  A unicode escape is accepted when it denotes a valid scalar
value; surrogate pairs are not reassembled (no claim exercises them).  The
fuel argument bounds the recursion; one unit per consumed character
suffices. -/
def scanStringAux : Nat → List Char → Option (List Char × List Char)
  | 0, _ => none
  | _ + 1, [] => none
  | fuel + 1, c :: rest =>
    if c = '"' then some ([], rest)
    else if c = '\\' then
      match rest with
      | [] => none
      | e :: rest2 =>
        if e = 'u' then
          match rest2 with
          | h1 :: h2 :: h3 :: h4 :: rest3 =>
            if isHexDigit h1 && isHexDigit h2 && isHexDigit h3 && isHexDigit h4 then
              let n := ((hexVal h1 * 16 + hexVal h2) * 16 + hexVal h3) * 16 + hexVal h4
              if n.isValidChar then
                match scanStringAux fuel rest3 with
                | some (s, r) => some (Char.ofNat n :: s, r)
                | none => none
              else none
            else none
          | _ => none
        else
          let d? : Option Char :=
            if e = '"' then some '"'
            else if e = '\\' then some '\\'
            else if e = '/' then some '/'
            else if e = 'b' then some '\x08'
            else if e = 'f' then some '\x0c'
            else if e = 'n' then some '\n'
            else if e = 'r' then some '\r'
            else if e = 't' then some '\t'
            else none
          match d? with
          | some d =>
            match scanStringAux fuel rest2 with
            | some (s, r) => some (d :: s, r)
            | none => none
          | none => none
    else if c.toNat < 32 then none
    else
      match scanStringAux fuel rest with
      | some (s, r) => some (c :: s, r)
      | none => none

/-- Scan a JSON string literal starting at the opening quote. -/
def scanString (s : List Char) : Option (List Char × List Char) :=
  match s with
  | '"' :: r => scanStringAux (r.length + 1) r
  | _ => none

/-- Longest prefix of decimal digits, with the rest of the input. -/
def digitSpan (s : List Char) : List Char × List Char :=
  (s.takeWhile isDigit, s.dropWhile isDigit)

/-- Scan the optional exponent part of a JSON number literal; `lit` is the
literal scanned so far. -/
def scanExp (lit : List Char) (s : List Char) : Option (List Char × List Char) :=
  match s with
  | [] => some (lit, [])
  | c :: r =>
    if c = 'e' || c = 'E' then
      let (sg, r2) : List Char × List Char :=
        match r with
        | '+' :: rr => (['+'], rr)
        | '-' :: rr => (['-'], rr)
        | _ => ([], r)
      let (ds, r3) := digitSpan r2
      if ds = [] then none else some (lit ++ c :: (sg ++ ds), r3)
    else some (lit, s)

/-- Scan the optional fraction part of a JSON number literal, then the
exponent part. -/
def scanFrac (lit : List Char) (s : List Char) : Option (List Char × List Char) :=
  match s with
  | '.' :: r =>
    let (ds, r2) := digitSpan r
    if ds = [] then none else scanExp (lit ++ '.' :: ds) r2
  | _ => scanExp lit s

/-- Scan a JSON number literal per the JSON grammar (optional minus, integer
part without leading zeros, optional fraction, optional exponent).  Returns
the consumed literal and the rest of the input. -/
def scanNumber (s : List Char) : Option (List Char × List Char) :=
  let (sgn, s1) : List Char × List Char :=
    match s with
    | '-' :: r => (['-'], r)
    | _ => ([], s)
  match s1 with
  | [] => none
  | c :: r =>
    if c = '0' then scanFrac (sgn ++ ['0']) r
    else if isDigit c then
      let (ds, r2) := digitSpan r
      scanFrac (sgn ++ c :: ds) r2
    else none

mutual

/-- Parse one JSON value; returns the value and the unconsumed input.  The
fuel bounds recursion depth; two units per consumed character suffice. -/
def parseValue : Nat → List Char → Option (Json × List Char)
  | 0, _ => none
  | fuel + 1, s =>
    match skipWs s with
    | [] => none
    | c :: r =>
      if c = '"' then
        match scanStringAux (r.length + 1) r with
        | some (str, rest) => some (.str str, rest)
        | none => none
      else if c = '{' then
        match skipWs r with
        | '}' :: r2 => some (.obj [], r2)
        | _ => parseMembers fuel r []
      else if c = '[' then
        match skipWs r with
        | ']' :: r2 => some (.arr [], r2)
        | _ => parseElements fuel r []
      else if c = 't' then
        match r with
        | 'r' :: 'u' :: 'e' :: rest => some (.bool true, rest)
        | _ => none
      else if c = 'f' then
        match r with
        | 'a' :: 'l' :: 's' :: 'e' :: rest => some (.bool false, rest)
        | _ => none
      else if c = 'n' then
        match r with
        | 'u' :: 'l' :: 'l' :: rest => some (.null, rest)
        | _ => none
      else
        match scanNumber (c :: r) with
        | some (lit, rest) => some (.num lit, rest)
        | none => none

/-- Parse the members of a JSON object after the opening brace (or after a
separating comma), accumulating parsed members in source order. -/
def parseMembers : Nat → List Char → List (List Char × Json) →
    Option (Json × List Char)
  | 0, _, _ => none
  | fuel + 1, s, acc =>
    match skipWs s with
    | '"' :: r =>
      match scanStringAux (r.length + 1) r with
      | none => none
      | some (key, r2) =>
        match skipWs r2 with
        | ':' :: r3 =>
          match parseValue fuel r3 with
          | none => none
          | some (v, r4) =>
            match skipWs r4 with
            | ',' :: r5 => parseMembers fuel r5 (acc ++ [(key, v)])
            | '}' :: r5 => some (.obj (acc ++ [(key, v)]), r5)
            | _ => none
        | _ => none
    | _ => none

/-- Parse the elements of a JSON array after the opening bracket (or after a
separating comma), accumulating parsed elements in source order. -/
def parseElements : Nat → List Char → List Json → Option (Json × List Char)
  | 0, _, _ => none
  | fuel + 1, s, acc =>
    match parseValue fuel s with
    | none => none
    | some (v, r) =>
      match skipWs r with
      | ',' :: r2 => parseElements fuel r2 (acc ++ [v])
      | ']' :: r2 => some (.arr (acc ++ [v]), r2)
      | _ => none

end

/-- Model of the JSON.parse builtin: parse one JSON value and require that
only whitespace follows it. -/
def jsonParse (s : List Char) : Option Json :=
  match parseValue (2 * s.length + 4) s with
  | some (v, rest) => if skipWs rest = [] then some v else none
  | none => none

/-- The decoders are parametric in the platform JSON parser. -/
abbrev Parse := List Char → Option Json

/-! ## The inner JSONL lead decoder

Both variants accumulate payload text in `jsonBuffer` and repeatedly extract
the substring up to the first newline while one exists, trimming each
extracted line and, when non-empty, attempting a one-shot JSON parse whose
success appends one lead; parse failure discards the line.  This models the
inner while-loop of `runSearch` (src/unnamed/part_000 lines 160-172 and
src/index.tsx lines 147-159). -/

/-- The loop guard predicate: a character other than the line separator. -/
def notNlChar (c : Char) : Bool := c ≠ '\n'

/-- State of the inner JSONL lead decoder: the pending text buffer and the
leads appended so far. -/
structure InnerState where
  jsonBuffer : List Char
  leads : List Json

/-- One iteration of the lead-extraction loop: split off the text up to the
first newline, trim it, and if non-empty attempt the parse, appending the
lead on success and discarding the line on failure. -/
def drainStep (p : Parse) (st : InnerState) : InnerState :=
  let leadLine := jsTrim (st.jsonBuffer.takeWhile notNlChar)
  let rest := (st.jsonBuffer.dropWhile notNlChar).tail
  { jsonBuffer := rest,
    leads :=
      if leadLine = [] then st.leads
      else
        match p leadLine with
        | some v => st.leads ++ [v]
        | none => st.leads }

/-- The lead-extraction while-loop.  Each iteration removes at least the
newline character from the buffer, so the buffer length bounds the number of
iterations; the fuel argument carries that bound. -/
def drainAux (p : Parse) : Nat → InnerState → InnerState
  | 0, st => st
  | fuel + 1, st =>
    if '\n' ∈ st.jsonBuffer then drainAux p fuel (drainStep p st) else st

/-- Run the lead-extraction loop until no newline remains in the buffer. -/
def drain (p : Parse) (st : InnerState) : InnerState :=
  drainAux p st.jsonBuffer.length st

/-- Feed one text fragment to the decoder: append it to the buffer and run
the extraction loop. -/
def processText (p : Parse) (st : InnerState) (text : List Char) : InnerState :=
  drain p { st with jsonBuffer := st.jsonBuffer ++ text }

/-- The completion flush: if the residual buffer trims to non-empty text, put
it through the same one-shot parse attempt; the result is the final sequence
of leads. -/
def flushLeads (p : Parse) (st : InnerState) : List Json :=
  let t := jsTrim st.jsonBuffer
  if t = [] then st.leads
  else
    match p t with
    | some v => st.leads ++ [v]
    | none => st.leads

/-- Fresh decoder state at the start of one search request. -/
def innerInit : InnerState := ⟨[], []⟩

/-- Feed a sequence of text fragments one at a time, then flush on the
completion signal. -/
def decodeFragments (p : Parse) (frags : List (List Char)) : List Json :=
  flushLeads p (frags.foldl (processText p) innerInit)

/-! ## Denotational characterization of the extraction loop -/

/-- Structural splitting of a buffer at newline characters: the complete
lines (text before each newline) and the residual text after the last
newline. -/
def splitOnNl : List Char → List (List Char) × List Char
  | [] => ([], [])
  | c :: cs =>
    let r := splitOnNl cs
    if c = '\n' then ([] :: r.1, r.2)
    else
      match r.1 with
      | [] => ([], c :: r.2)
      | l :: ls => ((c :: l) :: ls, r.2)

/-- The per-line handler: trim, skip when empty, otherwise the outcome of
the one-shot parse attempt. -/
def lineParse (p : Parse) (l : List Char) : Option Json :=
  let t := jsTrim l
  if t = [] then none else p t

lemma splitOnNl_no_nl {l : List Char} (h : '\n' ∉ l) : splitOnNl l = ([], l) := by
  induction l with
  | nil => rfl
  | cons c cs ih =>
    have hc : ¬ c = '\n' := fun hc => h (hc ▸ List.mem_cons_self c cs)
    have hcs : '\n' ∉ cs := fun hm => h (List.mem_cons_of_mem c hm)
    simp [splitOnNl, ih hcs, if_neg hc]

lemma splitOnNl_nl {pre suf : List Char} (h : '\n' ∉ pre) :
    splitOnNl (pre ++ '\n' :: suf) =
      (pre :: (splitOnNl suf).1, (splitOnNl suf).2) := by
  induction pre with
  | nil => simp [splitOnNl]
  | cons c cs ih =>
    have hc : ¬ c = '\n' := fun hc => h (hc ▸ List.mem_cons_self c cs)
    have hcs : '\n' ∉ cs := fun hm => h (List.mem_cons_of_mem c hm)
    simp [List.cons_append, splitOnNl, ih hcs, if_neg hc]

lemma splitOnNl_res_no_nl (l : List Char) : '\n' ∉ (splitOnNl l).2 := by
  induction l with
  | nil => simp [splitOnNl]
  | cons c cs ih =>
    by_cases hc : c = '\n'
    · simpa [splitOnNl, hc] using ih
    · simp only [splitOnNl, if_neg hc]
      rcases h : (splitOnNl cs).1 with _ | ⟨l1, ls⟩
      · simp only [h]
        intro hm
        rcases List.mem_cons.mp hm with h1 | h1
        · exact hc h1.symm
        · exact ih h1
      · simpa [h] using ih

lemma takeWhile_before_nl {pre suf : List Char} (h : '\n' ∉ pre) :
    (pre ++ '\n' :: suf).takeWhile notNlChar = pre := by
  induction pre with
  | nil => simp [notNlChar]
  | cons c cs ih =>
    have hc : ¬ c = '\n' := fun hc => h (hc ▸ List.mem_cons_self c cs)
    have hcs : '\n' ∉ cs := fun hm => h (List.mem_cons_of_mem c hm)
    simp only [List.cons_append]
    rw [List.takeWhile_cons_of_pos (by simp [notNlChar, hc]), ih hcs]

lemma dropWhile_from_nl {pre suf : List Char} (h : '\n' ∉ pre) :
    (pre ++ '\n' :: suf).dropWhile notNlChar = '\n' :: suf := by
  induction pre with
  | nil => simp [notNlChar]
  | cons c cs ih =>
    have hc : ¬ c = '\n' := fun hc => h (hc ▸ List.mem_cons_self c cs)
    have hcs : '\n' ∉ cs := fun hm => h (List.mem_cons_of_mem c hm)
    simp only [List.cons_append]
    rw [List.dropWhile_cons_of_pos (by simp [notNlChar, hc]), ih hcs]

lemma exists_nl_split {l : List Char} (h : '\n' ∈ l) :
    ∃ pre suf, '\n' ∉ pre ∧ l = pre ++ '\n' :: suf := by
  induction l with
  | nil => cases h
  | cons c cs ih =>
    by_cases hc : c = '\n'
    · exact ⟨[], cs, by simp, by simp [hc]⟩
    · rcases ih ((List.mem_cons.mp h).resolve_left fun h1 => hc h1.symm) with
        ⟨pre, suf, hpre, heq⟩
      refine ⟨c :: pre, suf, ?_, by simp [heq]⟩
      intro hm
      rcases List.mem_cons.mp hm with h1 | h1
      · exact hc h1.symm
      · exact hpre h1

lemma drainAux_eq (p : Parse) :
    ∀ fuel (st : InnerState), st.jsonBuffer.length ≤ fuel →
      drainAux p fuel st =
        ⟨(splitOnNl st.jsonBuffer).2,
         st.leads ++ (splitOnNl st.jsonBuffer).1.filterMap (lineParse p)⟩ := by
  intro fuel
  induction fuel with
  | zero =>
    rintro ⟨buf, leads⟩ hlen
    have hb : buf = [] := List.length_eq_zero.mp (Nat.le_zero.mp hlen)
    subst hb
    simp [drainAux, splitOnNl]
  | succ fuel ih =>
    rintro ⟨buf, leads⟩ hlen
    by_cases hmem : '\n' ∈ buf
    · rcases exists_nl_split hmem with ⟨pre, suf, hpre, heq⟩
      subst heq
      have hsuf : suf.length ≤ fuel := by
        simp only [List.length_append, List.length_cons] at hlen
        omega
      have hstep : drainStep p ⟨pre ++ '\n' :: suf, leads⟩ =
          ⟨suf, leads ++ (lineParse p pre).toList⟩ := by
        simp only [drainStep, takeWhile_before_nl hpre, dropWhile_from_nl hpre,
          List.tail_cons, lineParse, InnerState.mk.injEq, true_and]
        by_cases ht : jsTrim pre = []
        · simp [ht]
        · simp only [if_neg ht]
          cases p (jsTrim pre) <;> simp
      have hunf : drainAux p (fuel + 1) ⟨pre ++ '\n' :: suf, leads⟩ =
          drainAux p fuel (drainStep p ⟨pre ++ '\n' :: suf, leads⟩) := by
        simp [drainAux, hmem]
      rw [hunf, hstep, ih _ hsuf]
      simp only [splitOnNl_nl hpre]
      cases hlp : lineParse p pre <;>
        simp [List.filterMap_cons, hlp, List.append_assoc]
    · simp [drainAux, if_neg hmem, splitOnNl_no_nl hmem]

lemma processText_eq (p : Parse) (st : InnerState) (t : List Char) :
    processText p st t =
      ⟨(splitOnNl (st.jsonBuffer ++ t)).2,
       st.leads ++ (splitOnNl (st.jsonBuffer ++ t)).1.filterMap (lineParse p)⟩ := by
  unfold processText drain
  exact drainAux_eq p _ _ (Nat.le_refl _)

lemma processText_no_nl (p : Parse) (st : InnerState) (t : List Char) :
    '\n' ∉ (processText p st t).jsonBuffer := by
  rw [processText_eq]
  exact splitOnNl_res_no_nl _

lemma processText_nil (p : Parse) {st : InnerState}
    (h : '\n' ∉ st.jsonBuffer) : processText p st [] = st := by
  rw [processText_eq]
  rcases st with ⟨buf, leads⟩
  simp only [List.append_nil] at *
  simp [splitOnNl_no_nl h]

lemma splitOnNl_cons_nl (cs : List Char) :
    splitOnNl ('\n' :: cs) = ([] :: (splitOnNl cs).1, (splitOnNl cs).2) := by
  simp [splitOnNl]

lemma splitOnNl_cons_nil {c : Char} {cs : List Char} (hc : c ≠ '\n')
    (h : (splitOnNl cs).1 = []) :
    splitOnNl (c :: cs) = ([], c :: (splitOnNl cs).2) := by
  simp [splitOnNl, hc, h]

lemma splitOnNl_cons_cons {c : Char} {cs l : List Char} {ls : List (List Char)}
    (hc : c ≠ '\n') (h : (splitOnNl cs).1 = l :: ls) :
    splitOnNl (c :: cs) = ((c :: l) :: ls, (splitOnNl cs).2) := by
  simp [splitOnNl, hc, h]

lemma splitOnNl_append (a b : List Char) :
    splitOnNl (a ++ b) =
      ((splitOnNl a).1 ++ (splitOnNl ((splitOnNl a).2 ++ b)).1,
       (splitOnNl ((splitOnNl a).2 ++ b)).2) := by
  induction a with
  | nil => simp [splitOnNl]
  | cons c cs ih =>
    rcases hsc : splitOnNl cs with ⟨L, R⟩
    rcases hx : splitOnNl (R ++ b) with ⟨XL, XR⟩
    have ih2 : splitOnNl (cs ++ b) = (L ++ XL, XR) := by
      rw [ih, hsc]
      simp [hx]
    by_cases hc : c = '\n'
    · subst hc
      rw [List.cons_append, splitOnNl_cons_nl, splitOnNl_cons_nl cs,
        ih2, hsc]
      simp [hx]
    · rcases hL : L with _ | ⟨l, ls⟩
      · subst hL
        have h1 : (splitOnNl (cs ++ b)).1 = XL := by simp [ih2]
        have h2 : (splitOnNl cs).1 = [] := by simp [hsc]
        rcases hXL : XL with _ | ⟨x, xs⟩
        · subst hXL
          rw [List.cons_append, splitOnNl_cons_nil hc h1,
            splitOnNl_cons_nil hc h2, ih2, hsc]
          simp only [List.nil_append, List.cons_append]
          rw [splitOnNl_cons_nil hc (by simp [hx]), hx]
        · subst hXL
          rw [List.cons_append, splitOnNl_cons_cons hc h1,
            splitOnNl_cons_nil hc h2, ih2, hsc]
          simp only [List.nil_append, List.cons_append]
          rw [@splitOnNl_cons_cons c (R ++ b) x xs hc (by simp [hx]), hx]
      · subst hL
        have h1 : (splitOnNl (cs ++ b)).1 = l :: (ls ++ XL) := by simp [ih2]
        have h2 : (splitOnNl cs).1 = l :: ls := by simp [hsc]
        rw [List.cons_append, splitOnNl_cons_cons hc h1,
          splitOnNl_cons_cons hc h2, ih2, hsc]
        simp [hx]

lemma processText_append (p : Parse) (st : InnerState) (a b : List Char) :
    processText p st (a ++ b) = processText p (processText p st a) b := by
  simp only [processText_eq]
  rw [← List.append_assoc, splitOnNl_append (st.jsonBuffer ++ a) b]
  simp [List.filterMap_append, List.append_assoc]

lemma foldl_processText (p : Parse) :
    ∀ (frags : List (List Char)) (st : InnerState), '\n' ∉ st.jsonBuffer →
      frags.foldl (processText p) st = processText p st frags.flatten := by
  intro frags
  induction frags with
  | nil =>
    intro st h
    simp [processText_nil p h]
  | cons f fs ih =>
    intro st h
    simp only [List.foldl_cons, List.flatten_cons]
    rw [ih _ (processText_no_nl p st f), ← processText_append]

/-- C1: chunking invariance of the stream frame decoder.  For every way of
splitting a complete newline-delimited payload into fragments fed to the
decoder one at a time (with the completion flush at the end), the final
sequence of successfully parsed lead records equals the one obtained from
feeding the whole payload as a single fragment; this holds for every parse
function, in particular for the JSON.parse model. -/
theorem chunking_invariance (p : Parse) (frags : List (List Char)) :
    decodeFragments p frags = decodeFragments p [frags.flatten] := by
  unfold decodeFragments
  rw [foldl_processText p frags innerInit (by simp [innerInit]),
      foldl_processText p [frags.flatten] innerInit (by simp [innerInit])]
  simp

/-- C2: a record straddling two fragments is parsed exactly once, when its
terminating newline arrives.  After the first fragment (an unterminated
record prefix) no lead has been appended; after the second fragment, which
completes the first record and carries a second full record, exactly the
two records A and B have been appended, in that order. -/
theorem straddling_record_parsed_once :
    (processText jsonParse innerInit ("\x7b\"name\":\"A\"").data).leads = [] ∧
    (processText jsonParse
        (processText jsonParse innerInit ("\x7b\"name\":\"A\"").data)
        (",\"address\":\"x\"\x7d\n\x7b\"name\":\"B\",\"address\":\"y\"\x7d\n").data).leads =
      [Json.obj [("name".data, Json.str "A".data), ("address".data, Json.str "x".data)],
       Json.obj [("name".data, Json.str "B".data), ("address".data, Json.str "y".data)]] :=
  ⟨rfl, rfl⟩

/-- C5: a per-line parse failure is non-fatal.  A complete line whose
trimmed text the parse function rejects is discarded without changing the
appended leads, and the remainder of the stream is decoded exactly as it
would be from a clean buffer, so every subsequent valid line is still parsed
and appended. -/
theorem invalid_line_nonfatal (p : Parse) (st : InnerState) (bad rest : List Char)
    (h0 : '\n' ∉ st.jsonBuffer) (h1 : '\n' ∉ bad)
    (h2 : p (jsTrim (st.jsonBuffer ++ bad)) = none) :
    processText p st (bad ++ '\n' :: rest) = processText p ⟨[], st.leads⟩ rest := by
  rw [processText_eq, processText_eq]
  have hpre : '\n' ∉ st.jsonBuffer ++ bad := by
    simp [List.mem_append, h0, h1]
  have hlp : lineParse p (st.jsonBuffer ++ bad) = none := by
    unfold lineParse
    by_cases ht : jsTrim (st.jsonBuffer ++ bad) = [] <;> simp [ht, h2]
  rw [← List.append_assoc, splitOnNl_nl hpre]
  simp [List.filterMap_cons, hlp]

/-- Witness for C5: the line `not json` is rejected by the JSON.parse model
and discarded, and a subsequent valid line is decoded as from a clean
buffer. -/
theorem invalid_line_nonfatal_witness :
    ('\n' ∉ innerInit.jsonBuffer) ∧ ('\n' ∉ ("not json").data) ∧
    jsonParse (jsTrim (innerInit.jsonBuffer ++ ("not json").data)) = none ∧
    processText jsonParse innerInit (("not json").data ++ '\n' :: ("7\n").data) =
      processText jsonParse ⟨[], innerInit.leads⟩ ("7\n").data :=
  ⟨by decide, by decide, rfl,
   invalid_line_nonfatal jsonParse innerInit ("not json").data ("7\n").data
     (by decide) (by decide) rfl⟩

/-- C9: no schema validation is performed on lead lines.  Whenever the parse
function accepts the trimmed non-empty line, the resulting value is appended
to the leads unconditionally, whatever its shape (a bare number, a string,
an array, or an object missing the required keys alike). -/
theorem no_schema_validation (p : Parse) (st : InnerState) (line : List Char)
    (v : Json) (h0 : '\n' ∉ st.jsonBuffer) (h1 : '\n' ∉ line)
    (h2 : jsTrim (st.jsonBuffer ++ line) ≠ [])
    (h3 : p (jsTrim (st.jsonBuffer ++ line)) = some v) :
    (processText p st (line ++ ['\n'])).leads = st.leads ++ [v] := by
  rw [processText_eq]
  have hpre : '\n' ∉ st.jsonBuffer ++ line := by
    simp [List.mem_append, h0, h1]
  have hassoc : st.jsonBuffer ++ (line ++ ['\n']) =
      (st.jsonBuffer ++ line) ++ '\n' :: [] := by simp
  rw [hassoc, splitOnNl_nl hpre]
  have hlp : lineParse p (st.jsonBuffer ++ line) = some v := by
    unfold lineParse
    simp [h2, h3]
  simp [List.filterMap_cons, hlp, splitOnNl]

/-- Witness for C9: the line `7`, a bare JSON number with none of the
BusinessLead keys, is appended as a lead. -/
theorem no_schema_validation_witness :
    ('\n' ∉ innerInit.jsonBuffer) ∧ ('\n' ∉ ("7").data) ∧
    jsTrim (innerInit.jsonBuffer ++ ("7").data) ≠ [] ∧
    jsonParse (jsTrim (innerInit.jsonBuffer ++ ("7").data)) =
      some (Json.num "7".data) ∧
    (processText jsonParse innerInit (("7").data ++ ['\n'])).leads =
      innerInit.leads ++ [Json.num "7".data] :=
  ⟨by decide, by decide, by decide, rfl,
   no_schema_validation jsonParse innerInit ("7").data (Json.num "7".data)
     (by decide) (by decide) (by decide) rfl⟩

lemma splitOnNl_flatten {ls : List (List Char)} (h : ∀ l ∈ ls, '\n' ∉ l) :
    splitOnNl ((ls.map (fun l => l ++ ['\n'])).flatten) = (ls, []) := by
  induction ls with
  | nil => simp [splitOnNl]
  | cons a as ih =>
    simp only [List.map_cons, List.flatten_cons]
    have ha : '\n' ∉ a := h a (List.mem_cons_self a as)
    have hassoc : a ++ ['\n'] ++ (as.map (fun l => l ++ ['\n'])).flatten =
        a ++ '\n' :: (as.map (fun l => l ++ ['\n'])).flatten := by simp
    rw [hassoc, splitOnNl_nl ha, ih (fun l hl => h l (List.mem_cons_of_mem a hl))]

/-- C7: the decoder enforces no upper bound on the number of records.  For a
payload of N valid lead lines, all N records are parsed and appended, for
every N; nothing in the decoder caps the count at 30 or anywhere else. -/
theorem decoder_unbounded (p : Parse) (ls : List (List Char)) (f : List Char → Json)
    (h : ∀ l ∈ ls, '\n' ∉ l ∧ jsTrim l ≠ [] ∧ p (jsTrim l) = some (f l)) :
    decodeFragments p [(ls.map (fun l => l ++ ['\n'])).flatten] = ls.map f := by
  have hfm : ∀ (ms : List (List Char)),
      (∀ l ∈ ms, jsTrim l ≠ [] ∧ p (jsTrim l) = some (f l)) →
      ms.filterMap (lineParse p) = ms.map f := by
    intro ms
    induction ms with
    | nil => simp
    | cons a as ih =>
      intro hh
      have ha := hh a (List.mem_cons_self a as)
      have hlp : lineParse p a = some (f a) := by
        unfold lineParse
        simp [ha.1, ha.2]
      simp [List.filterMap_cons, hlp,
        ih (fun l hl => hh l (List.mem_cons_of_mem a hl))]
  unfold decodeFragments
  simp only [List.foldl_cons, List.foldl_nil]
  rw [processText_eq]
  have hsplit := splitOnNl_flatten (fun l hl => (h l hl).1)
  simp only [innerInit, List.nil_append, hsplit]
  unfold flushLeads
  simp [hfm ls (fun l hl => ⟨(h l hl).2.1, (h l hl).2.2⟩), jsTrim]

/-- Witness for C7: thirty-one identical valid one-record lines, more than
the upstream prompt's cap of 30, are all appended. -/
theorem decoder_unbounded_witness :
    30 < (List.replicate 31 ("7").data).length ∧
    (∀ l ∈ List.replicate 31 ("7").data,
      '\n' ∉ l ∧ jsTrim l ≠ [] ∧ jsonParse (jsTrim l) = some (Json.num "7".data)) ∧
    decodeFragments jsonParse
        [((List.replicate 31 ("7").data).map (fun l => l ++ ['\n'])).flatten] =
      (List.replicate 31 ("7").data).map (fun _ => Json.num "7".data) := by
  refine ⟨by decide, ?_, ?_⟩
  · intro l hl
    rw [List.eq_of_mem_replicate hl]
    exact ⟨by decide, by decide, rfl⟩
  · exact decoder_unbounded jsonParse (List.replicate 31 ("7").data)
      (fun _ => Json.num "7".data)
      (fun l hl => by
        rw [List.eq_of_mem_replicate hl]
        exact ⟨by decide, by decide, rfl⟩)

/-! ## The envelope variant (src/index.tsx)

The fetch-based variant reads raw text chunks into a transport buffer
`streamBuffer`, extracts complete lines from it by the same
first-newline-loop, and parses each non-empty trimmed line as a JSON
envelope: a `content` envelope feeds its payload to the inner lead decoder
above, a `sources` envelope appends its batch of source references, and
anything else is ignored. -/

/-- Last-occurrence lookup in an object's member list: with duplicate keys,
JSON.parse keeps the last occurrence, and property access sees that value. -/
def lookupLast (k : List Char) : List (List Char × Json) → Option Json
  | [] => none
  | (k1, v) :: rest =>
    match lookupLast k rest with
    | some v1 => some v1
    | none => if k1 = k then some v else none

/-- Property access msg.k as used by the envelope dispatch: a member of an
object, undefined otherwise.  Accessing a property of null throws in
JavaScript, but the throw lands in the same per-line catch that guards the
parse, so the line is skipped either way; both are modelled as no field. -/
def getField (j : Json) (k : List Char) : Option Json :=
  match j with
  | .obj kvs => lookupLast k kvs
  | _ => none

/-- Is some mantissa digit of the number literal non-zero, i.e. is the
denoted JavaScript number truthy (NaN cannot arise from JSON.parse). -/
def numLitTruthy (lit : List Char) : Bool :=
  (lit.takeWhile (fun c => !(c == 'e' || c == 'E'))).any (fun c => '1' ≤ c && c ≤ '9')

/-- JavaScript truthiness of a parsed JSON value. -/
def isTruthy : Json → Bool
  | .null => false
  | .bool b => b
  | .num lit => numLitTruthy lit
  | .str s => !s.isEmpty
  | .arr _ => true
  | .obj _ => true

/-- JavaScript ToString coercion applied by the += concatenation in the
content branch, with a fuel bounding recursion into nested arrays; the
caller passes the length of the line the value was parsed from, which
bounds the nesting depth of any JSON.parse result since each level consumes
at least one character.  A string payload - the protocol's documented shape
and the only one any verified claim exercises - is returned as-is whatever
the fuel.  A number prints its stored literal (JavaScript re-formats the
double; the two agree on canonical literals); an array joins its coerced
elements with commas, null elements printing as empty; an object prints as
its tag. -/
def jsToString : Nat → Json → List Char
  | _, .null => "null".data
  | _, .bool true => "true".data
  | _, .bool false => "false".data
  | _, .num lit => lit
  | _, .str s => s
  | _, .obj _ => "[object Object]".data
  | 0, .arr _ => []
  | fuel + 1, .arr xs =>
    List.intercalate [','] (xs.map fun x =>
      match x with
      | .null => []
      | y => jsToString fuel y)

/-- Elements contributed by the spread of a sources payload.  An array
spreads to its elements; a string spreads to its characters.  Spreading
another truthy value would raise a TypeError inside the deferred state
update - a path outside the decoder loop that no envelope of the protocol
and no claim exercises - and is modelled as contributing no elements. -/
def jsSpread : Json → List Json
  | .arr xs => xs
  | .str s => s.map (fun c => Json.str [c])
  | _ => []

/-- The strict-equality test msg.type === tag of the envelope dispatch:
true exactly when the field holds that string. -/
def isTypeTag (msg : Json) (tag : List Char) : Bool :=
  match getField msg ("type").data with
  | some (.str s) => s = tag
  | _ => false

/-- The envelope's payload field, when present. -/
def payloadOf (msg : Json) : Option Json := getField msg ("payload").data

/-- Truthiness of msg.payload, false when the field is absent. -/
def payloadTruthy (msg : Json) : Bool :=
  match payloadOf msg with
  | some pl => isTruthy pl
  | none => false

/-- The envelope decoder's state apart from the transport buffer: the inner
payload buffer, the leads, and the source references (appended per batch as
received; the source comments that the server sends unique sources and
performs no client-side filtering). -/
structure EnvCore where
  jsonBuffer : List Char
  leads : List Json
  sources : List Json

/-- Dispatch of one parsed non-empty envelope line (src/index.tsx lines
140-168): a content envelope with truthy payload appends the coerced
payload to the inner buffer and runs the lead-extraction loop; a sources
envelope with truthy payload appends its batch; every other line, including
one whose parse fails, leaves the state unchanged (the failure is only
logged). -/
def envHandleLine (p : Parse) (st : EnvCore) (line : List Char) : EnvCore :=
  match p line with
  | none => st
  | some msg =>
    if isTypeTag msg ("content").data && payloadTruthy msg then
      match payloadOf msg with
      | some pl =>
        let inner := drain p ⟨st.jsonBuffer ++ jsToString line.length pl, st.leads⟩
        { st with jsonBuffer := inner.jsonBuffer, leads := inner.leads }
      | none => st
    else if isTypeTag msg ("sources").data && payloadTruthy msg then
      match payloadOf msg with
      | some pl => { st with sources := st.sources ++ jsSpread pl }
      | none => st
    else st

/-- One extracted transport line: trim, skip silently when empty, dispatch
otherwise. -/
def envLineStep (p : Parse) (st : EnvCore) (rawLine : List Char) : EnvCore :=
  let line := jsTrim rawLine
  if line = [] then st else envHandleLine p st line

/-- Full state of the envelope decoder. -/
structure EnvState where
  streamBuffer : List Char
  core : EnvCore

/-- The outer line-extraction while-loop over the transport buffer; as for
the inner loop, each iteration removes at least the newline, so the buffer
length bounds the iteration count carried by the fuel. -/
def envDrainAux (p : Parse) : Nat → EnvState → EnvState
  | 0, st => st
  | fuel + 1, st =>
    if '\n' ∈ st.streamBuffer then
      envDrainAux p fuel
        ⟨(st.streamBuffer.dropWhile notNlChar).tail,
         envLineStep p st.core (st.streamBuffer.takeWhile notNlChar)⟩
    else st

/-- Run the outer extraction loop until no newline remains. -/
def envDrain (p : Parse) (st : EnvState) : EnvState :=
  envDrainAux p st.streamBuffer.length st

/-- Feed one decoded fetch chunk: append it to the transport buffer and run
the outer extraction loop. -/
def envChunk (p : Parse) (st : EnvState) (text : List Char) : EnvState :=
  envDrain p ⟨st.streamBuffer ++ text, st.core⟩

/-- Fresh envelope-decoder state: the search start clears leads, sources
and the error slot. -/
def envInit : EnvState := ⟨[], ⟨[], [], []⟩⟩

/-- The fatal transport failures: non-success HTTP response, missing
response body, terminal network error on the body stream.  The source maps
each to one human-readable message for the single error slot. -/
inductive ErrTag where
  | fetchFailed : ErrTag
  | missingBody : ErrTag
  | networkError : ErrTag

/-- Outcome of one search: the leads and sources visible at the end, and
the single user-facing error value if the search aborted. -/
structure EnvResult where
  leads : List Json
  sources : List Json
  error : Option ErrTag

/-- Transport-level behaviour of one request: a non-success response, a
response without a body, or a body stream delivering the given chunks and
then either completing cleanly (true) or failing with a terminal network
error at the next read (false). -/
inductive Transport where
  | httpError : Transport
  | noBody : Transport
  | stream : List (List Char) → Bool → Transport

/-- The envelope-variant runSearch (src/index.tsx lines 84-206): reset the
session state; abort before any decoding on a non-success response or a
missing body; otherwise decode the delivered chunks one at a time; on clean
completion flush the inner payload buffer, on a terminal read error skip
the flush, keep the leads and sources decoded so far, and surface the
single error. -/
def runSearchEnv (p : Parse) : Transport → EnvResult
  | .httpError => ⟨[], [], some .fetchFailed⟩
  | .noBody => ⟨[], [], some .missingBody⟩
  | .stream chunks cleanEnd =>
    let st := chunks.foldl (envChunk p) envInit
    if cleanEnd then
      ⟨flushLeads p ⟨st.core.jsonBuffer, st.core.leads⟩, st.core.sources, none⟩
    else
      ⟨st.core.leads, st.core.sources, some .networkError⟩

lemma envDrainAux_eq (p : Parse) :
    ∀ fuel (st : EnvState), st.streamBuffer.length ≤ fuel →
      envDrainAux p fuel st =
        ⟨(splitOnNl st.streamBuffer).2,
         (splitOnNl st.streamBuffer).1.foldl (envLineStep p) st.core⟩ := by
  intro fuel
  induction fuel with
  | zero =>
    rintro ⟨sb, core⟩ hlen
    have hb : sb = [] := List.length_eq_zero.mp (Nat.le_zero.mp hlen)
    subst hb
    simp [envDrainAux, splitOnNl]
  | succ fuel ih =>
    rintro ⟨sb, core⟩ hlen
    by_cases hmem : '\n' ∈ sb
    · rcases exists_nl_split hmem with ⟨pre, suf, hpre, heq⟩
      subst heq
      have hsuf : suf.length ≤ fuel := by
        simp only [List.length_append, List.length_cons] at hlen
        omega
      have hunf : envDrainAux p (fuel + 1) ⟨pre ++ '\n' :: suf, core⟩ =
          envDrainAux p fuel ⟨suf, envLineStep p core pre⟩ := by
        simp [envDrainAux, hmem, takeWhile_before_nl hpre, dropWhile_from_nl hpre]
      rw [hunf, ih _ hsuf]
      simp [splitOnNl_nl hpre]
    · simp [envDrainAux, if_neg hmem, splitOnNl_no_nl hmem]

lemma envChunk_eq (p : Parse) (st : EnvState) (text : List Char) :
    envChunk p st text =
      ⟨(splitOnNl (st.streamBuffer ++ text)).2,
       (splitOnNl (st.streamBuffer ++ text)).1.foldl (envLineStep p) st.core⟩ := by
  unfold envChunk envDrain
  exact envDrainAux_eq p _ _ (Nat.le_refl _)

/-- C8: partial results survive a fatal transport error.  A terminal
network error after any sequence of delivered chunks leaves exactly the
leads and sources already decoded from those chunks (no flush is run) and
surfaces a single user-facing error value; a non-success response or a
missing response body aborts before any decoding with empty results and a
single error value. -/
theorem transport_error_preserves_partials (p : Parse) (chunks : List (List Char)) :
    (runSearchEnv p (.stream chunks false)).leads =
        (chunks.foldl (envChunk p) envInit).core.leads ∧
    (runSearchEnv p (.stream chunks false)).sources =
        (chunks.foldl (envChunk p) envInit).core.sources ∧
    (runSearchEnv p (.stream chunks false)).error = some .networkError ∧
    runSearchEnv p .httpError = ⟨[], [], some .fetchFailed⟩ ∧
    runSearchEnv p .noBody = ⟨[], [], some .missingBody⟩ :=
  ⟨rfl, rfl, rfl, rfl, rfl⟩

/-- C10: in the envelope variant, a well-formed envelope line that matches
neither the content branch nor the sources branch - its type is some other
value, or its payload is absent or falsy - is silently ignored: the leads,
the sources and the inner payload buffer are left unchanged by that line,
only the consumed transport buffer shrinks. -/
theorem silent_envelope_skip (p : Parse) (st : EnvState) (line : List Char)
    (msg : Json) (h0 : '\n' ∉ st.streamBuffer) (h1 : '\n' ∉ line)
    (h2 : p (jsTrim (st.streamBuffer ++ line)) = some msg)
    (h3 : (isTypeTag msg ("content").data && payloadTruthy msg) = false)
    (h4 : (isTypeTag msg ("sources").data && payloadTruthy msg) = false) :
    envChunk p st (line ++ ['\n']) = ⟨[], st.core⟩ := by
  rw [envChunk_eq]
  have hpre : '\n' ∉ st.streamBuffer ++ line := by
    simp [List.mem_append, h0, h1]
  have hassoc : st.streamBuffer ++ (line ++ ['\n']) =
      (st.streamBuffer ++ line) ++ '\n' :: [] := by simp
  rw [hassoc, splitOnNl_nl hpre]
  have hstep : envLineStep p st.core (st.streamBuffer ++ line) = st.core := by
    unfold envLineStep
    by_cases ht : jsTrim (st.streamBuffer ++ line) = []
    · simp [ht]
    · simp only [if_neg ht]
      unfold envHandleLine
      simp [h2, h3, h4]
  simp [splitOnNl, hstep]

/-- Witness for C10: an envelope line of type `other` parses as a
well-formed message, matches neither branch, and leaves the core state
untouched. -/
theorem silent_envelope_skip_witness :
    jsonParse (jsTrim (envInit.streamBuffer ++
        ("\x7b\"type\":\"other\",\"payload\":\"x\"\x7d").data)) =
      some (Json.obj [(("type").data, Json.str ("other").data),
                      (("payload").data, Json.str ("x").data)]) ∧
    (isTypeTag (Json.obj [(("type").data, Json.str ("other").data),
        (("payload").data, Json.str ("x").data)]) ("content").data &&
      payloadTruthy (Json.obj [(("type").data, Json.str ("other").data),
        (("payload").data, Json.str ("x").data)])) = false ∧
    envChunk jsonParse envInit
        (("\x7b\"type\":\"other\",\"payload\":\"x\"\x7d").data ++ ['\n']) =
      ⟨[], envInit.core⟩ :=
  ⟨rfl, rfl,
   silent_envelope_skip jsonParse envInit
     ("\x7b\"type\":\"other\",\"payload\":\"x\"\x7d").data
     (Json.obj [(("type").data, Json.str ("other").data),
                (("payload").data, Json.str ("x").data)])
     (by decide) (by decide) rfl rfl rfl⟩

/-- C6: empty and whitespace-only lines are skipped silently, in the inner
lead decoder and in the envelope decoder alike: a line that is empty after
trimming produces no record, no error, and no change to the leads or
sources state, and the remaining input decodes as from a clean buffer. -/
theorem blank_line_ignored :
    (∀ (p : Parse) (st : InnerState) (ws rest : List Char),
      '\n' ∉ st.jsonBuffer → '\n' ∉ ws → jsTrim (st.jsonBuffer ++ ws) = [] →
      processText p st (ws ++ '\n' :: rest) = processText p ⟨[], st.leads⟩ rest) ∧
    (∀ (p : Parse) (st : EnvState) (ws : List Char),
      '\n' ∉ st.streamBuffer → '\n' ∉ ws → jsTrim (st.streamBuffer ++ ws) = [] →
      envChunk p st (ws ++ ['\n']) = ⟨[], st.core⟩) := by
  constructor
  · intro p st ws rest h0 h1 h2
    rw [processText_eq, processText_eq]
    have hpre : '\n' ∉ st.jsonBuffer ++ ws := by
      simp [List.mem_append, h0, h1]
    have hlp : lineParse p (st.jsonBuffer ++ ws) = none := by
      unfold lineParse
      simp [h2]
    rw [← List.append_assoc, splitOnNl_nl hpre]
    simp [List.filterMap_cons, hlp]
  · intro p st ws h0 h1 h2
    rw [envChunk_eq]
    have hpre : '\n' ∉ st.streamBuffer ++ ws := by
      simp [List.mem_append, h0, h1]
    have hassoc : st.streamBuffer ++ (ws ++ ['\n']) =
        (st.streamBuffer ++ ws) ++ '\n' :: [] := by simp
    rw [hassoc, splitOnNl_nl hpre]
    have hstep : envLineStep p st.core (st.streamBuffer ++ ws) = st.core := by
      unfold envLineStep
      simp [h2]
    simp [splitOnNl, hstep]

/-- Witness for C6: a whitespace-only line before a valid line changes
nothing in the inner decoder, and a whitespace-only transport line leaves
the envelope core untouched. -/
theorem blank_line_ignored_witness :
    jsTrim (innerInit.jsonBuffer ++ ("  ").data) = [] ∧
    processText jsonParse innerInit (("  ").data ++ '\n' :: ("7\n").data) =
      processText jsonParse ⟨[], innerInit.leads⟩ ("7\n").data ∧
    jsTrim (envInit.streamBuffer ++ (" ").data) = [] ∧
    envChunk jsonParse envInit ((" ").data ++ ['\n']) = ⟨[], envInit.core⟩ :=
  ⟨by decide,
   blank_line_ignored.1 jsonParse innerInit ("  ").data ("7\n").data
     (by decide) (by decide) (by decide),
   by decide,
   blank_line_ignored.2 jsonParse envInit (" ").data
     (by decide) (by decide) (by decide)⟩

/-- Counterexample to C4 as stated: one chunk holding a complete content
envelope with no trailing newline.  The whole envelope stays in the outer
transport buffer; on completion the decoder parses nothing - the final
flush reads only the inner payload buffer and the outer residue is
discarded - although dispatching the trimmed residue would have produced
the lead record A carried by its payload. -/
theorem outer_residual_not_flushed :
    runSearchEnv jsonParse (.stream
        [("\x7b\"type\":\"content\",\"payload\":\"\x7b\\\"name\\\":\\\"A\\\"\x7d\\n\"\x7d").data]
        true) =
      ⟨[], [], none⟩ ∧
    envHandleLine jsonParse ⟨[], [], []⟩
        (jsTrim ("\x7b\"type\":\"content\",\"payload\":\"\x7b\\\"name\\\":\\\"A\\\"\x7d\\n\"\x7d").data) =
      ⟨[], [Json.obj [(("name").data, Json.str ("A").data)]], []⟩ :=
  ⟨rfl, rfl⟩

/-- C4 (amended): on the completion signal, the final trim-and-parse
attempt is applied to the residual text of the inner payload buffer, so a
trailing unterminated lead record with no trailing newline is still parsed;
residual text left in the outer transport buffer at completion is discarded
without a parse attempt, the completion result being determined by the core
state alone. -/
theorem inner_residual_flushed (p : Parse) (chunks : List (List Char)) (v : Json)
    (h1 : jsTrim (chunks.foldl (envChunk p) envInit).core.jsonBuffer ≠ [])
    (h2 : p (jsTrim (chunks.foldl (envChunk p) envInit).core.jsonBuffer) = some v) :
    (runSearchEnv p (.stream chunks true)).leads =
      (chunks.foldl (envChunk p) envInit).core.leads ++ [v] ∧
    runSearchEnv p (.stream chunks true) =
      ⟨flushLeads p ⟨(chunks.foldl (envChunk p) envInit).core.jsonBuffer,
                     (chunks.foldl (envChunk p) envInit).core.leads⟩,
       (chunks.foldl (envChunk p) envInit).core.sources, none⟩ := by
  refine ⟨?_, rfl⟩
  show flushLeads p _ = _
  unfold flushLeads
  simp [h1, h2]

/-- Witness for C4 (amended): a content envelope whose payload is a record
with no trailing newline leaves that record in the inner buffer, and the
completion flush parses it. -/
theorem inner_residual_flushed_witness :
    jsTrim (([("\x7b\"type\":\"content\",\"payload\":\"\x7b\\\"name\\\":\\\"A\\\"\x7d\"\x7d\n").data].foldl
        (envChunk jsonParse) envInit).core.jsonBuffer) ≠ [] ∧
    jsonParse (jsTrim (([("\x7b\"type\":\"content\",\"payload\":\"\x7b\\\"name\\\":\\\"A\\\"\x7d\"\x7d\n").data].foldl
        (envChunk jsonParse) envInit).core.jsonBuffer)) =
      some (Json.obj [(("name").data, Json.str ("A").data)]) ∧
    (runSearchEnv jsonParse (.stream
        [("\x7b\"type\":\"content\",\"payload\":\"\x7b\\\"name\\\":\\\"A\\\"\x7d\"\x7d\n").data]
        true)).leads =
      ([("\x7b\"type\":\"content\",\"payload\":\"\x7b\\\"name\\\":\\\"A\\\"\x7d\"\x7d\n").data].foldl
        (envChunk jsonParse) envInit).core.leads ++
        [Json.obj [(("name").data, Json.str ("A").data)]] :=
  ⟨by decide, rfl,
   (inner_residual_flushed jsonParse
     [("\x7b\"type\":\"content\",\"payload\":\"\x7b\\\"name\\\":\\\"A\\\"\x7d\"\x7d\n").data]
     (Json.obj [(("name").data, Json.str ("A").data)])
     (by decide) rfl).1⟩

/-- Counterexample to C3 as stated: in the envelope variant the sources
branch appends every batch without filtering (the source trusts the server
to send unique sources), so feeding the identical sources envelope twice
yields two source references with the same uri, not one. -/
theorem env_sources_not_deduped :
    (runSearchEnv jsonParse (.stream
        [("\x7b\"type\":\"sources\",\"payload\":[\x7b\"web\":\x7b\"uri\":\"http://a\",\"title\":\"A\"\x7d\x7d]\x7d\n").data,
         ("\x7b\"type\":\"sources\",\"payload\":[\x7b\"web\":\x7b\"uri\":\"http://a\",\"title\":\"A\"\x7d\x7d]\x7d\n").data]
        true)).sources =
      [Json.obj [(("web").data,
         Json.obj [(("uri").data, Json.str ("http://a").data),
                   (("title").data, Json.str ("A").data)])],
       Json.obj [(("web").data,
         Json.obj [(("uri").data, Json.str ("http://a").data),
                   (("title").data, Json.str ("A").data)])]] :=
  rfl

/-! ## The direct SDK variant (src/unnamed/part_000)

Each SDK stream chunk may carry a batch of grounding chunks and a text
fragment.  Grounding chunks are filtered against the session's
processedSourceUris set - only chunks whose web uri is truthy and not
already seen are kept - before being recorded and appended to the sources;
the text fragment is fed to the same inner lead decoder. -/

/-- A grounding chunk's web reference. -/
structure WebRef where
  uri : List Char
  title : List Char

/-- A grounding chunk as delivered by the SDK; the web reference is
optional. -/
structure GChunk where
  web : Option WebRef

/-- One SDK stream chunk: the optional grounding batch and the text
fragment; an absent text behaves as the empty, falsy string. -/
structure SdkChunk where
  groundingChunks : Option (List GChunk)
  text : List Char

/-- Session state of the SDK variant. -/
structure SdkState where
  jsonBuffer : List Char
  leads : List Json
  sources : List GChunk
  processedSourceUris : List (List Char)

/-- The sources step (src/unnamed/part_000 lines 147-154): keep the chunks
whose web uri is truthy and not already processed; when any remain, record
their uris as processed and append them to the sources. -/
def sdkSources (st : SdkState) (newChunks : Option (List GChunk)) : SdkState :=
  match newChunks with
  | none => st
  | some cs =>
    let uniqueNew := cs.filter fun c =>
      match c.web with
      | some w => !w.uri.isEmpty && decide (w.uri ∉ st.processedSourceUris)
      | none => false
    if 0 < uniqueNew.length then
      { st with
        processedSourceUris :=
          st.processedSourceUris ++ uniqueNew.filterMap (fun c => c.web.map WebRef.uri),
        sources := st.sources ++ uniqueNew }
    else st

/-- One iteration of the SDK stream loop (lines 146-174): handle the
grounding batch, then feed a truthy text fragment to the inner lead
decoder. -/
def sdkStep (p : Parse) (st : SdkState) (ck : SdkChunk) : SdkState :=
  let st1 := sdkSources st ck.groundingChunks
  if ck.text = [] then st1
  else
    let inner := drain p ⟨st1.jsonBuffer ++ ck.text, st1.leads⟩
    { st1 with jsonBuffer := inner.jsonBuffer, leads := inner.leads }

/-- Fresh SDK-variant session state. -/
def sdkInit : SdkState := ⟨[], [], [], []⟩

/-- Run the SDK stream loop over the delivered chunks. -/
def sdkRun (p : Parse) (cks : List SdkChunk) : SdkState :=
  cks.foldl (sdkStep p) sdkInit

/-- The uris of the grounding chunks carrying a web reference. -/
def urisOf (cs : List GChunk) : List (List Char) :=
  cs.filterMap (fun c => c.web.map WebRef.uri)

lemma sdkSources_inv {st : SdkState}
    (hnd : (urisOf st.sources).Nodup)
    (hsub : ∀ u ∈ urisOf st.sources, u ∈ st.processedSourceUris)
    {ncs : Option (List GChunk)}
    (hb : (urisOf (ncs.getD [])).Nodup) :
    (urisOf (sdkSources st ncs).sources).Nodup ∧
      ∀ u ∈ urisOf (sdkSources st ncs).sources,
        u ∈ (sdkSources st ncs).processedSourceUris := by
  rcases ncs with _ | cs
  · exact ⟨hnd, hsub⟩
  · simp only [Option.getD_some] at hb
    unfold sdkSources
    set pred : GChunk → Bool := fun c =>
      match c.web with
      | some w => !w.uri.isEmpty && decide (w.uri ∉ st.processedSourceUris)
      | none => false with hpred
    by_cases hlen : 0 < (cs.filter pred).length
    · simp only [if_pos hlen]
      have hsubl : (urisOf (cs.filter pred)).Nodup :=
        hb.sublist ((List.filter_sublist cs).filterMap _)
      have hfresh : ∀ u ∈ urisOf (cs.filter pred),
          u ∉ st.processedSourceUris := by
        intro u hu
        rcases List.mem_filterMap.mp hu with ⟨c, hc, hcu⟩
        rcases Option.map_eq_some'.mp hcu with ⟨w, hw, hwu⟩
        have hcp := (List.mem_filter.mp hc).2
        rw [hpred] at hcp
        simp only [hw, Bool.and_eq_true, decide_eq_true_eq] at hcp
        exact hwu ▸ hcp.2
      constructor
      · show (urisOf (st.sources ++ cs.filter pred)).Nodup
        unfold urisOf
        rw [List.filterMap_append]
        rw [List.nodup_append]
        refine ⟨hnd, hsubl, ?_⟩
        intro u hu
        exact fun hu2 => hfresh u hu2 (hsub u hu)
      · intro u hu
        unfold urisOf at hu
        rw [List.filterMap_append, List.mem_append] at hu
        rcases hu with hu | hu
        · exact List.mem_append_left _ (hsub u hu)
        · exact List.mem_append_right _ hu
    · simp only [if_neg hlen]
      exact ⟨hnd, hsub⟩

lemma sdkStep_inv (p : Parse) {st : SdkState} {ck : SdkChunk}
    (hnd : (urisOf st.sources).Nodup)
    (hsub : ∀ u ∈ urisOf st.sources, u ∈ st.processedSourceUris)
    (hb : (urisOf (ck.groundingChunks.getD [])).Nodup) :
    (urisOf (sdkStep p st ck).sources).Nodup ∧
      ∀ u ∈ urisOf (sdkStep p st ck).sources,
        u ∈ (sdkStep p st ck).processedSourceUris := by
  have h1 := sdkSources_inv hnd hsub hb
  unfold sdkStep
  by_cases ht : ck.text = []
  · simpa [ht] using h1
  · simpa [ht] using h1

/-- C3 (amended): SourceReference deduplication by uri within one search
session is performed by the direct SDK variant, not the envelope variant.
In the SDK variant, whenever every incoming grounding batch has internally
distinct uris, the final sources hold at most one entry per uri - in
particular, a batch repeating an already-seen uri adds no second entry for
it.  In the envelope variant, a sources envelope with an array payload is
appended without any client-side filtering, so a repeated uri yields
repeated entries. -/
theorem sdk_sources_dedup_by_uri :
    (∀ (p : Parse) (cks : List SdkChunk),
      (∀ ck ∈ cks, (urisOf (ck.groundingChunks.getD [])).Nodup) →
      (urisOf (sdkRun p cks).sources).Nodup) ∧
    (∀ (p : Parse) (st : EnvState) (line : List Char) (msg : Json)
        (xs : List Json),
      '\n' ∉ st.streamBuffer → '\n' ∉ line →
      jsTrim (st.streamBuffer ++ line) ≠ [] →
      p (jsTrim (st.streamBuffer ++ line)) = some msg →
      (isTypeTag msg ("content").data && payloadTruthy msg) = false →
      isTypeTag msg ("sources").data = true →
      payloadOf msg = some (Json.arr xs) →
      (envChunk p st (line ++ ['\n'])).core.sources = st.core.sources ++ xs) := by
  constructor
  · intro p cks
    have key : ∀ (cks : List SdkChunk) (st : SdkState),
        (urisOf st.sources).Nodup →
        (∀ u ∈ urisOf st.sources, u ∈ st.processedSourceUris) →
        (∀ ck ∈ cks, (urisOf (ck.groundingChunks.getD [])).Nodup) →
        (urisOf (cks.foldl (sdkStep p) st).sources).Nodup := by
      intro cks
      induction cks with
      | nil =>
        intro st h1 _ _
        simpa using h1
      | cons ck cks ih =>
        intro st h1 h2 h3
        simp only [List.foldl_cons]
        have hstep := sdkStep_inv p h1 h2 (h3 ck (List.mem_cons_self ck cks))
        exact ih _ hstep.1 hstep.2 (fun c hc => h3 c (List.mem_cons_of_mem ck hc))
    intro h
    exact key cks sdkInit (by simp [sdkInit, urisOf]) (by simp [sdkInit, urisOf]) h
  · intro p st line msg xs h0 h1 ht h2 h3 h4 h5
    rw [envChunk_eq]
    have hpre : '\n' ∉ st.streamBuffer ++ line := by
      simp [List.mem_append, h0, h1]
    have hassoc : st.streamBuffer ++ (line ++ ['\n']) =
        (st.streamBuffer ++ line) ++ '\n' :: [] := by simp
    rw [hassoc, splitOnNl_nl hpre]
    have htr : payloadTruthy msg = true := by
      unfold payloadTruthy
      rw [h5]
      rfl
    have hstep : envLineStep p st.core (st.streamBuffer ++ line) =
        { st.core with sources := st.core.sources ++ xs } := by
      unfold envLineStep
      simp only [if_neg ht]
      unfold envHandleLine
      have hcf : isTypeTag msg ("content").data = false := by
        simpa [htr] using h3
      simp [h2, hcf, h4, h5, htr, jsSpread]
    simp [splitOnNl, hstep]

/-- Witness for C3 (amended): in the SDK variant, two single-chunk batches
carrying the same uri produce exactly one source entry, with distinct uris
overall; in the envelope variant, a sources envelope batch is appended
as-is. -/
theorem sdk_sources_dedup_by_uri_witness :
    (∀ ck ∈ [SdkChunk.mk (some [GChunk.mk (some (WebRef.mk ("http://a").data ("A").data))]) [],
             SdkChunk.mk (some [GChunk.mk (some (WebRef.mk ("http://a").data ("A").data))]) []],
      (urisOf (ck.groundingChunks.getD [])).Nodup) ∧
    (urisOf (sdkRun jsonParse
        [SdkChunk.mk (some [GChunk.mk (some (WebRef.mk ("http://a").data ("A").data))]) [],
         SdkChunk.mk (some [GChunk.mk (some (WebRef.mk ("http://a").data ("A").data))]) []]).sources).Nodup ∧
    (sdkRun jsonParse
        [SdkChunk.mk (some [GChunk.mk (some (WebRef.mk ("http://a").data ("A").data))]) [],
         SdkChunk.mk (some [GChunk.mk (some (WebRef.mk ("http://a").data ("A").data))]) []]).sources.length = 1 ∧
    jsonParse (jsTrim (envInit.streamBuffer ++
        ("\x7b\"type\":\"sources\",\"payload\":[7]\x7d").data)) =
      some (Json.obj [(("type").data, Json.str ("sources").data),
                      (("payload").data, Json.arr [Json.num ['7']])]) ∧
    (envChunk jsonParse envInit
        (("\x7b\"type\":\"sources\",\"payload\":[7]\x7d").data ++ ['\n'])).core.sources =
      envInit.core.sources ++ [Json.num ['7']] :=
  ⟨by decide,
   sdk_sources_dedup_by_uri.1 jsonParse
     [SdkChunk.mk (some [GChunk.mk (some (WebRef.mk ("http://a").data ("A").data))]) [],
      SdkChunk.mk (some [GChunk.mk (some (WebRef.mk ("http://a").data ("A").data))]) []]
     (by decide),
   by decide,
   rfl,
   sdk_sources_dedup_by_uri.2 jsonParse envInit
     ("\x7b\"type\":\"sources\",\"payload\":[7]\x7d").data
     (Json.obj [(("type").data, Json.str ("sources").data),
                (("payload").data, Json.arr [Json.num ['7']])])
     [Json.num ['7']]
     (by decide) (by decide) (by decide) rfl rfl rfl rfl⟩

end LeadFinder
